import Mathlib

/-!
# html_api: the cache-backed request pipeline of `main.go`

A shallow embedding of `formatURL`, `loadSite` and `handleRequest` and of the pieces of
the Go libraries they call, followed by the properties proved about them.

Go strings are modelled by Lean strings, that is by their sequence of characters; every
pattern the program matches is ASCII, so matching characters and matching UTF-8 bytes
agree on well-formed text.
-/

namespace HtmlApi

/-! ## `formatURL` -/

/-- Number of `/` characters at the head of the input: what the greedy `\/+` consumes. -/
def countSlashes : List Char → Nat
  | [] => 0
  | c :: t => if c = '/' then countSlashes t + 1 else 0

/-- Strip a literal from the head of the input, giving what follows it. -/
def stripLit : List Char → List Char → Option (List Char)
  | [], l => some l
  | _ :: _, [] => none
  | p :: ps, c :: t => if p = c then stripLit ps t else none

/-- The tail `:\/+` of the pattern at the head of the input: the number of characters it
consumes, a colon and one slash or more. -/
def matchTail : List Char → Option Nat
  | [] => none
  | c :: t => if c = ':' ∧ countSlashes t ≠ 0 then some (1 + countSlashes t) else none

/-- One attempt of the pattern `(http(?:s)?):\/+` at the head of the input: the text of
group 1 and the length of the whole match. The optional `s` is greedy: the branch that
takes it is tried first, the branch that skips it after. -/
def matchAt (l : List Char) : Option (List Char × Nat) :=
  match stripLit "http".data l with
  | none => none
  | some r =>
    match (stripLit "s".data r).bind matchTail with
    | some n => some ("https".data, 5 + n)
    | none => (matchTail r).map fun n => ("http".data, 4 + n)

/-- The scan of `ReplaceAllString(url, "$1://")`. The first argument counts the characters
that still belong to the last match and are passed over; after them every position is
tried in turn: a match is replaced by group 1 followed by `://` and the scan resumes at
the end of the match, any other character is copied. -/
def replaceAllFrom : Nat → List Char → List Char
  | _, [] => []
  | k + 1, _ :: t => replaceAllFrom k t
  | 0, c :: t =>
    match matchAt (c :: t) with
    | some (g, n) => g ++ "://".data ++ replaceAllFrom (n - 1) t
    | none => c :: replaceAllFrom 0 t

/-- The effect of `re.ReplaceAllString(url, "$1://")` for `re = (?m)(http(?:s)?):\/+`. -/
def collapse (l : List Char) : List Char := replaceAllFrom 0 l

/-- Go's `strings.HasPrefix`. -/
def HasPrefix (s p : String) : Bool := p.data.isPrefixOf s.data

/-- The function `formatURL` of `main.go`. -/
def formatURL (url : String) : String :=
  let url : String := ⟨collapse url.data⟩
  if !HasPrefix url "http" then "https://" ++ url else url

/-! ## Time

An instant is a count of nanoseconds on the process clock, a duration a count of
nanoseconds; both are integers, and the int64 range of `time.Duration` is made explicit
where Go saturates. -/

/-- The constant `time.Second`, in nanoseconds. -/
def Second : Int := 1000000000

/-- The constant `time.Hour`, in nanoseconds. -/
def Hour : Int := 3600 * Second

/-- The least `time.Duration`. -/
def minDuration : Int := -(2 ^ 63)

/-- The greatest `time.Duration`. -/
def maxDuration : Int := 2 ^ 63 - 1

/-- Go's `Time.Add`. -/
def timeAdd (t d : Int) : Int := t + d

/-- Go's `Time.Sub`: the difference `t - u`, saturated to the range of a duration. -/
def timeSub (t u : Int) : Int :=
  if t - u > maxDuration then maxDuration
  else if t - u < minDuration then minDuration
  else t - u

/-- Go's `time.Since(t)`, with the clock reading `now` made explicit. -/
def Since (now t : Int) : Int := timeSub now t

/-- Go's `Duration.Abs`. -/
def durationAbs (d : Int) : Int :=
  if d ≥ 0 then d
  else if d = minDuration then maxDuration
  else -d

/-- The value `age` of the cache-hit branch:
`time.Since(val.Timestamp.Add(time.Hour)).Abs()`. -/
def age (now timestamp : Int) : Int := durationAbs (Since now (timeAdd timestamp Hour))

/-- The number printed by `fmt.Sprintf("%.0f", d.Seconds())`: `d.Seconds()` is
`float64(d / Second) + float64(d % Second) / 1e9`, and `%.0f` prints the nearest whole
number, a half going to the even neighbour. For a duration below `2 ^ 24` seconds the
float differs from the exact ratio by less than a nanosecond while the ratio is a whole
number of nanoseconds, so the float is on the same side of the half as the ratio (or
exactly on it when the ratio is) and the number printed is the one computed here on
integers. -/
def secondsRounded (d : Int) : Int :=
  let sec := Int.tdiv d Second
  let nsec := Int.tmod d Second
  if 2 * nsec.natAbs < Second.natAbs then sec
  else if 2 * nsec.natAbs > Second.natAbs then (if d < 0 then sec - 1 else sec + 1)
  else if sec % 2 = 0 then sec
  else (if d < 0 then sec - 1 else sec + 1)

/-! ## The request, the reply and the collaborators -/

/-- Go's `len` of a string: its number of bytes. -/
def len (s : String) : Nat := s.utf8ByteSize

/-- Go's `strconv.FormatBool`. -/
def FormatBool (b : Bool) : String := if b then "true" else "false"

/-- Go's `unicode.IsSpace`. -/
def isSpace (c : Char) : Bool :=
  c ∈ ['\t', '\n', '\x0b', '\x0c', '\r', ' ', '\u0085', '\u00a0', '\u1680', '\u2028',
    '\u2029', '\u202f', '\u205f', '\u3000'] || ('\u2000' ≤ c && c ≤ '\u200a')

/-- Go's `strings.TrimSpace`. -/
def TrimSpace (s : String) : String :=
  ⟨((s.data.dropWhile isSpace).reverse.dropWhile isSpace).reverse⟩

/-- The struct `Response` of `main.go`. -/
structure Response where
  Selector : String
  URL : String
  Elements : List String
  deriving DecidableEq

/-- The struct `CachedResponse` of `main.go`. -/
structure CachedResponse where
  Timestamp : Int
  Data : String
  deriving DecidableEq

/-- What the handler reads of a `fasthttp.RequestCtx`. `Path()` is the normalised path
of the request, to which fasthttp's `normalizePath` gives a leading slash; the arguments
of the query string and of the body are lists of key and value in the order received, the
multipart form (when the request has one) maps a key to its values. -/
structure Request where
  path : String
  rooted : HasPrefix path "/" = true
  queryArgs : List (String × String)
  postArgs : List (String × String)
  multipartForm : Option (List (String × List String))

/-- The call `Args.Peek` of fasthttp: the value of the first argument with the key, nothing when
no argument has it. -/
def Peek (args : List (String × String)) (key : String) : Option String :=
  (args.find? fun kv => kv.1 = key).map Prod.snd

/-- The call `ctx.FormValue(key)` of fasthttp, converted to a string: the first non-empty value
among the query arguments, the body arguments and the multipart form, else empty. -/
def Request.FormValue (ctx : Request) (key : String) : String :=
  let v := (Peek ctx.queryArgs key).getD ""
  if len v > 0 then v
  else
    let v := (Peek ctx.postArgs key).getD ""
    if len v > 0 then v
    else
      match ctx.multipartForm with
      | none => ""
      | some mf =>
        match (mf.find? fun kv => kv.1 = key).map Prod.snd with
        | some (v :: _) => v
        | _ => ""

/-- What the handler sets of `ctx.Response`; a fresh reply has status 200, fasthttp's
default content type and no body. -/
structure Reply where
  statusCode : Nat := 200
  contentType : String := "text/plain; charset=utf-8"
  cacheControl : Option String := none
  body : String := ""
  deriving DecidableEq

/-- The call `ctx.Error(msg, statusCode)` of fasthttp: the reply is reset, then given the status, the
default content type and the message as body. -/
def replyError (msg : String) (statusCode : Nat) : Reply :=
  { statusCode := statusCode, contentType := "text/plain; charset=utf-8", body := msg }

/-- What `http.Get` returns when it returns no error. -/
structure HttpResponse where
  StatusCode : Int
  Status : String
  Body : String
  deriving DecidableEq

/-- The calls the program makes to its collaborators, in the order it makes them. -/
inductive Event where
  | formatURL (raw : String)
  | cacheGet (key : String)
  | httpGet (url : String)
  | newDocumentFromReader (body : String)
  | bodyClose
  | find (selector : String)
  | marshalIndent (resp : Response)
  | cacheAdd (key : String) (value : CachedResponse)
  deriving DecidableEq

/-- The collaborators of one request, as the values they return: the HTTP client, goquery
(documents of type `Doc`, selections of type `Sel`), the JSON encoder and the clock at each
of the four places that read it. -/
structure Env (Doc Sel : Type) where
  httpGet : String → Except String HttpResponse
  newDocumentFromReader : String → Except String Doc
  find : Doc → String → List Sel
  html : Sel → String × Option String
  text : Sel → String
  marshalIndent : Response → Except String String
  nowGet : Int
  nowSince : Int
  nowStamp : Int
  nowAdd : Int

/-! ## The cache -/

/-- One entry of the cache's list. -/
structure Entry where
  key : String
  value : CachedResponse
  expiresAt : Int
  deriving DecidableEq

/-- Modelled from the spec: the Response Cache of section 4.4, which the program takes from
the library `golang-lru/v2/expirable` (not among the repository's sources). A bounded list
of entries, the most recently used first, each with its expiry instant. -/
structure LRU where
  size : Nat
  ttl : Int
  entries : List Entry
  deriving DecidableEq

/-- The entry stored under a key, expired or not. -/
def LRU.lookup (c : LRU) (key : String) : Option Entry :=
  c.entries.find? fun e => e.key = key

/-- Modelled from the spec: `get` of section 4.4 (the library's `Get`). A key that is absent
or whose entry has expired misses and leaves the cache as it is; a hit returns the value
and makes the entry the most recently used. -/
def LRU.Get (c : LRU) (key : String) (now : Int) : Option CachedResponse × LRU :=
  match c.lookup key with
  | none => (none, c)
  | some e =>
    if now > e.expiresAt then (none, c)
    else (some e.value, { c with entries := e :: c.entries.filter fun x => x.key ≠ key })

/-- Modelled from the spec: `put` of section 4.4 (the library's `Add`). An existing key gets
the new value and expiry and becomes the most recently used; a new key is put first, and
when that exceeds the capacity the least recently used entry is evicted. -/
def LRU.Add (c : LRU) (key : String) (value : CachedResponse) (now : Int) : LRU :=
  let e : Entry := ⟨key, value, now + c.ttl⟩
  match c.lookup key with
  | some _ => { c with entries := e :: c.entries.filter fun x => x.key ≠ key }
  | none =>
    let l := e :: c.entries
    { c with entries := if c.size > 0 ∧ l.length > c.size then l.dropLast else l }

/-- The variable `cache` of `main.go` at start: `expirable.NewLRU(10, nil, time.Hour*1)`. -/
def cache : LRU := ⟨10, Hour * 1, []⟩

/-! ## `loadSite` and `handleRequest` -/

/-- The function `loadSite` of `main.go`, with the calls it makes. -/
def loadSite {Doc Sel : Type} (env : Env Doc Sel) (url : String) :
    Except String Doc × List Event :=
  match env.httpGet url with
  | .error err => (.error err, [.httpGet url])
  | .ok res =>
    if res.StatusCode ≠ 200 then
      (.error ("status code error: " ++ toString res.StatusCode ++ " " ++ res.Status),
        [.httpGet url, .bodyClose])
    else
      (env.newDocumentFromReader res.Body,
        [.httpGet url, .newDocumentFromReader res.Body, .bodyClose])

/-- The flag `isRaw` of `handleRequest`: `len(ctx.FormValue("raw")) > 0`. -/
def isRaw (ctx : Request) : Bool := decide (len (ctx.FormValue "raw") > 0)

/-- The string `cacheKey` of `handleRequest`: `url + selector + strconv.FormatBool(isRaw)`. -/
def cacheKey (url selector : String) (isRaw : Bool) : String :=
  url ++ selector ++ FormatBool isRaw

/-- The elements of the response: the loop over `site.Find(selector)` of `handleRequest`,
run only for a selector that is not empty. -/
def elements {Doc Sel : Type} (env : Env Doc Sel) (site : Doc) (selector : String)
    (isRaw : Bool) : List String :=
  if selector ≠ "" then
    (env.find site selector).map fun s =>
      if isRaw then (env.html s).1 else TrimSpace (env.text s)
  else []

/-- The header the cache-hit branch sets:
`fmt.Sprintf("public, max-age=%.0f, immutable", age.Seconds())`. -/
def hitCacheControl (age : Int) : String :=
  "public, max-age=" ++ toString (secondsRounded age) ++ ", immutable"

/-- What one run of the handler leaves: the reply, the cache and the calls made. -/
structure Outcome where
  reply : Reply
  cache : LRU
  trace : List Event
  deriving DecidableEq

/-- The function `handleRequest` of `main.go` (logging left out), as a function of the
collaborators' answers and of the cache before the request. -/
def handleRequest {Doc Sel : Type} (env : Env Doc Sel) (cache : LRU) (ctx : Request) :
    Outcome :=
  if len ctx.path ≠ 1 then
    ⟨{ statusCode := 404 }, cache, []⟩
  else
    let url := formatURL (ctx.FormValue "url")
    let selector := ctx.FormValue "selector"
    let isRaw := isRaw ctx
    let cacheKey := cacheKey url selector isRaw
    let pre : List Event := [.formatURL (ctx.FormValue "url"), .cacheGet cacheKey]
    match cache.Get cacheKey env.nowGet with
    | (some val, cache) =>
      ⟨{ contentType := "application/json",
         cacheControl := some (hitCacheControl (age env.nowSince val.Timestamp)),
         body := val.Data }, cache, pre⟩
    | (none, cache) =>
      match loadSite env url with
      | (.error err, evs) => ⟨replyError err 500, cache, pre ++ evs⟩
      | (.ok site, evs) =>
        let resp : Response := ⟨selector, url, elements env site selector isRaw⟩
        let pre := pre ++ evs ++
          (if selector ≠ "" then [Event.find selector] else []) ++ [.marshalIndent resp]
        match env.marshalIndent resp with
        | .error err => ⟨replyError err 500, cache, pre⟩
        | .ok result =>
          let c : CachedResponse := ⟨env.nowStamp, result⟩
          ⟨{ contentType := "application/json",
             cacheControl := some "public, max-age=3600, immutable",
             body := result }, cache.Add cacheKey c env.nowAdd, pre ++ [.cacheAdd cacheKey c]⟩

/-! ## Vocabulary of the statements -/

/-- Go's `strings.Contains`, as a proposition: `sub` occurs in `s` as a substring. -/
def Contains (s sub : String) : Prop := sub.data <:+: s.data

instance (s sub : String) : Decidable (Contains s sub) := by
  unfold Contains; infer_instance

/-- Go's `strings.Repeat("/", n)`: a run of `n` slashes. -/
def slashes (n : Nat) : String := ⟨List.replicate n '/'⟩

/-- The cache key `handleRequest` computes for a request. -/
def requestKey (ctx : Request) : String :=
  cacheKey (formatURL (ctx.FormValue "url")) (ctx.FormValue "selector") (isRaw ctx)

/-- The response `handleRequest` hands to the JSON encoder once the page `site` is loaded. -/
def responseOf {Doc Sel : Type} (env : Env Doc Sel) (ctx : Request) (site : Doc) : Response :=
  ⟨ctx.FormValue "selector", formatURL (ctx.FormValue "url"),
    elements env site (ctx.FormValue "selector") (isRaw ctx)⟩

/-! ## Concrete collaborators, for evaluating the model -/

/-- Collaborators of a small world: `https://example.com` answers 200 with a one-paragraph
page, every other URL answers 404; a document is its text, a selection the text of its
node, and the encoder joins the elements. -/
def demoEnv : Env String String where
  httpGet := fun url =>
    if url = "https://example.com" then .ok ⟨200, "200 OK", "<p> hi </p>"⟩
    else .ok ⟨404, "404 Not Found", ""⟩
  newDocumentFromReader := fun body => .ok body
  find := fun doc _ => [doc]
  html := fun s => (s, none)
  text := fun s => s
  marshalIndent := fun r => .ok (String.join r.Elements)
  nowGet := 100
  nowSince := 101
  nowStamp := 102
  nowAdd := 103

/-- A request to `/` for the paragraphs of `example.com`. -/
def demoReq : Request := ⟨"/", rfl, [("url", "example.com"), ("selector", "p")], [], none⟩

/-- A request to `/` for a page that answers 404. -/
def missingReq : Request := ⟨"/", rfl, [("url", "missing.example")], [], none⟩

/-- A request to a path other than `/`. -/
def otherPathReq : Request := ⟨"/health", rfl, [("url", "example.com")], [], none⟩

/-- The whole number `n` of seconds is the nearest one to the duration `d`, a duration
half-way between two whole numbers going to the even one: what `%.0f` prints for `d`. -/
def NearestSeconds (n d : Int) : Prop :=
  2 * (n * Second - d) ≤ Second ∧ 2 * (d - n * Second) ≤ Second ∧
  ((2 * (n * Second - d) = Second ∨ 2 * (d - n * Second) = Second) → n % 2 = 0)

instance (n d : Int) : Decidable (NearestSeconds n d) := by
  unfold NearestSeconds; infer_instance

/-- The collaborators of `demoEnv` half an hour and half a second after the timestamp 102
that `demoEnv` gives its cache entry. -/
def laterEnv : Env String String :=
  { demoEnv with
    nowGet := 102 + 1800 * Second
    nowSince := 102 + 1800 * Second + 500000000
    nowStamp := 102 + 1800 * Second + 500000001
    nowAdd := 102 + 1800 * Second + 500000002 }

/-! ### The scan, one step at a time -/

theorem replaceAllFrom_drop (k : Nat) (l : List Char) :
    replaceAllFrom k l = collapse (l.drop k) := by
  induction l generalizing k with
  | nil => simp [collapse, replaceAllFrom]
  | cons c t ih =>
    cases k with
    | zero => simp [collapse]
    | succ k => simpa [replaceAllFrom] using ih k

theorem collapse_nil : collapse [] = [] := by simp [collapse, replaceAllFrom]

theorem collapse_cons_none (c : Char) (t : List Char) (h : matchAt (c :: t) = none) :
    collapse (c :: t) = c :: collapse t := by
  simp [collapse, replaceAllFrom, h]

theorem collapse_cons_some (c : Char) (t g : List Char) (n : Nat)
    (h : matchAt (c :: t) = some (g, n)) :
    collapse (c :: t) = g ++ "://".data ++ collapse (t.drop (n - 1)) := by
  have e : collapse (c :: t) = g ++ "://".data ++ replaceAllFrom (n - 1) t := by
    simp [collapse, replaceAllFrom, h]
  rw [e, replaceAllFrom_drop]

theorem matchAt_http (t : List Char) :
    matchAt ('h' :: 't' :: 't' :: 'p' :: ':' :: '/' :: t)
      = some ("http".data, 6 + countSlashes t) := by
  simp [matchAt, stripLit, matchTail, countSlashes, Option.bind]
  omega

theorem matchAt_https (t : List Char) :
    matchAt ('h' :: 't' :: 't' :: 'p' :: 's' :: ':' :: '/' :: t)
      = some ("https".data, 7 + countSlashes t) := by
  simp [matchAt, stripLit, matchTail, countSlashes, Option.bind]
  omega

theorem stripLit_eq_some (p l r : List Char) : stripLit p l = some r ↔ l = p ++ r := by
  induction p generalizing l with
  | nil => simp [stripLit, eq_comm]
  | cons a ps ih =>
    cases l with
    | nil => simp [stripLit]
    | cons c t =>
      by_cases hac : a = c
      · simp [stripLit, hac, ih]
      · simp [stripLit, hac, Ne.symm hac]

theorem countSlashes_ne_zero (t : List Char) :
    countSlashes t ≠ 0 ↔ ∃ u, t = '/' :: u := by
  cases t with
  | nil => simp [countSlashes]
  | cons c u =>
    by_cases hc : c = '/'
    · simp [countSlashes, hc]
    · simp [countSlashes, hc]

theorem matchTail_eq_some (l : List Char) (n : Nat) :
    matchTail l = some n ↔ ∃ u, l = ':' :: '/' :: u ∧ n = 2 + countSlashes u := by
  cases l with
  | nil => simp [matchTail]
  | cons c t =>
    by_cases hc : c = ':'
    · subst hc
      cases t with
      | nil => simp [matchTail, countSlashes]
      | cons d u =>
        by_cases hd : d = '/'
        · subst hd
          simp [matchTail, countSlashes]
          omega
        · simp [matchTail, countSlashes, hd]
    · simp [matchTail, hc]

/-- A match at the head of the input is `http:/` or `https:/` followed by every further
slash; group 1 is the scheme. -/
theorem matchAt_eq_some (l g : List Char) (n : Nat) (h : matchAt l = some (g, n)) :
    (∃ u, l = "http:/".data ++ u ∧ g = "http".data ∧ n = 6 + countSlashes u) ∨
    (∃ u, l = "https:/".data ++ u ∧ g = "https".data ∧ n = 7 + countSlashes u) := by
  unfold matchAt at h
  cases hs : stripLit "http".data l with
  | none => simp [hs] at h
  | some r =>
    simp only [hs] at h
    rw [stripLit_eq_some] at hs
    cases h2 : (stripLit "s".data r).bind matchTail with
    | some m =>
      simp only [h2, Option.some.injEq, Prod.mk.injEq] at h
      right
      obtain ⟨r2, hr2, hm⟩ := Option.bind_eq_some.mp h2
      rw [stripLit_eq_some] at hr2
      obtain ⟨u, hu, hn⟩ := (matchTail_eq_some r2 m).mp hm
      refine ⟨u, ?_, h.1.symm, ?_⟩
      · rw [hs, hr2, hu]; rfl
      · omega
    | none =>
      simp only [h2] at h
      left
      obtain ⟨m, hm, hgm⟩ := Option.map_eq_some'.mp h
      obtain ⟨u, hu, hn⟩ := (matchTail_eq_some r m).mp hm
      simp only [Prod.mk.injEq] at hgm
      refine ⟨u, ?_, hgm.1.symm, ?_⟩
      · rw [hs, hu]; rfl
      · omega

theorem matchAt_head (c : Char) (t : List Char) (hc : c ≠ 'h') : matchAt (c :: t) = none := by
  simp [matchAt, stripLit, Ne.symm hc]

theorem matchAt_nil : matchAt [] = none := by
  simp [matchAt, stripLit]

theorem collapse_http (u : List Char) :
    collapse ("http:/".data ++ u) = "http://".data ++ collapse (u.drop (countSlashes u)) := by
  have h := collapse_cons_some 'h' ("ttp:/".data ++ u) _ _ (matchAt_http u)
  have e : List.drop (6 + countSlashes u - 1) ("ttp:/".data ++ u)
      = List.drop (countSlashes u) u := by
    rw [show 6 + countSlashes u - 1 = countSlashes u + 5 by omega]; rfl
  rw [e] at h
  exact h

theorem collapse_https (u : List Char) :
    collapse ("https:/".data ++ u) = "https://".data ++ collapse (u.drop (countSlashes u)) := by
  have h := collapse_cons_some 'h' ("ttps:/".data ++ u) _ _ (matchAt_https u)
  have e : List.drop (7 + countSlashes u - 1) ("ttps:/".data ++ u)
      = List.drop (countSlashes u) u := by
    rw [show 7 + countSlashes u - 1 = countSlashes u + 6 by omega]; rfl
  rw [e] at h
  exact h

theorem countSlashes_drop (u : List Char) : countSlashes (u.drop (countSlashes u)) = 0 := by
  induction u with
  | nil => simp [countSlashes]
  | cons c t ih =>
    by_cases hc : c = '/'
    · simpa [countSlashes, hc] using ih
    · simp [countSlashes, hc]

theorem countSlashes_replicate (n : Nat) (r : List Char) :
    countSlashes (List.replicate n '/' ++ r) = n + countSlashes r := by
  induction n with
  | zero => simp
  | succ n ih => simp [List.replicate_succ, countSlashes, ih]; omega

/-- The scan never produces a leading slash that the input did not have. -/
theorem countSlashes_collapse (l : List Char) (h : countSlashes l = 0) :
    countSlashes (collapse l) = 0 := by
  cases l with
  | nil => simp [collapse_nil, countSlashes]
  | cons c t =>
    cases hm : matchAt (c :: t) with
    | none =>
      rw [collapse_cons_none c t hm]
      by_cases hc : c = '/'
      · simp [countSlashes, hc] at h
      · simp [countSlashes, hc]
    | some gn =>
      obtain ⟨g, n⟩ := gn
      rw [collapse_cons_some c t g n hm]
      rcases matchAt_eq_some _ _ _ hm with ⟨u, -, hg, -⟩ | ⟨u, -, hg, -⟩ <;>
        subst hg <;> simp [countSlashes]

/-- Text that holds neither `http:/` nor `https:/` is copied unchanged. -/
theorem collapse_eq_self (r : List Char) (h1 : ¬ "http:/".data <:+: r)
    (h2 : ¬ "https:/".data <:+: r) : collapse r = r := by
  induction r with
  | nil => exact collapse_nil
  | cons c t ih =>
    cases hm : matchAt (c :: t) with
    | none =>
      rw [collapse_cons_none c t hm, ih]
      · exact fun h => h1 (h.trans (List.suffix_cons c t).isInfix)
      · exact fun h => h2 (h.trans (List.suffix_cons c t).isInfix)
    | some gn =>
      obtain ⟨g, n⟩ := gn
      rcases matchAt_eq_some _ _ _ hm with ⟨u, hl, -, -⟩ | ⟨u, hl, -, -⟩
      · exact absurd (hl ▸ (List.prefix_append _ u).isInfix) h1
      · exact absurd (hl ▸ (List.prefix_append _ u).isInfix) h2

/-- A match always puts an `h` first. -/
theorem collapse_head_of_match (c : Char) (t g : List Char) (n : Nat)
    (hm : matchAt (c :: t) = some (g, n)) : ∃ x, collapse (c :: t) = 'h' :: x := by
  rw [collapse_cons_some c t g n hm]
  rcases matchAt_eq_some _ _ _ hm with ⟨u, -, hg, -⟩ | ⟨u, -, hg, -⟩ <;>
    subst hg <;> exact ⟨_, rfl⟩

/-- Output that starts with characters other than `h` is a copy of the input there. -/
theorem collapse_literal_inv (p : List Char) (hp : ∀ c ∈ p, c ≠ 'h') (t x : List Char)
    (h : collapse t = p ++ x) : ∃ u, t = p ++ u ∧ x = collapse u := by
  induction p generalizing t with
  | nil => exact ⟨t, rfl, by simpa using h.symm⟩
  | cons a ps ih =>
    have ha : a ≠ 'h' := hp a (List.mem_cons_self a ps)
    cases t with
    | nil => simp [collapse_nil] at h
    | cons c t1 =>
      cases hm : matchAt (c :: t1) with
      | some gn =>
        obtain ⟨y, hy⟩ := collapse_head_of_match c t1 gn.1 gn.2 hm
        rw [hy] at h
        simp only [List.cons_append, List.cons.injEq] at h
        exact absurd h.1.symm ha
      | none =>
        rw [collapse_cons_none c t1 hm] at h
        simp only [List.cons_append, List.cons.injEq] at h
        obtain ⟨u, hu, hx⟩ := ih (fun d hd => hp d (List.mem_cons_of_mem a hd)) t1 h.2
        exact ⟨u, by rw [h.1, hu]; rfl, hx⟩

/-- A position that does not match before the scan of what follows it does not match
after it either. -/
theorem matchAt_collapse_none (c : Char) (t : List Char) (h : matchAt (c :: t) = none) :
    matchAt (c :: collapse t) = none := by
  cases hm : matchAt (c :: collapse t) with
  | none => rfl
  | some gn =>
    exfalso
    rcases matchAt_eq_some _ gn.1 gn.2 hm with ⟨u, hl, -, -⟩ | ⟨u, hl, -, -⟩
    · have hc : c = 'h' ∧ collapse t = "ttp:/".data ++ u := by
        simpa using hl
      obtain ⟨v, hv, -⟩ := collapse_literal_inv "ttp:/".data (by decide) t u hc.2
      rw [hc.1, hv] at h
      have := matchAt_http v
      simp_all
    · have hc : c = 'h' ∧ collapse t = "ttps:/".data ++ u := by
        simpa using hl
      obtain ⟨v, hv, -⟩ := collapse_literal_inv "ttps:/".data (by decide) t u hc.2
      rw [hc.1, hv] at h
      have := matchAt_https v
      simp_all

theorem collapse_idem_aux (n : Nat) :
    ∀ l : List Char, l.length ≤ n → collapse (collapse l) = collapse l := by
  induction n with
  | zero =>
    intro l hl
    have : l = [] := List.length_eq_zero.mp (Nat.le_zero.mp hl)
    subst this
    simp [collapse_nil]
  | succ n ih =>
    intro l hl
    cases l with
    | nil => simp [collapse_nil]
    | cons c t =>
      have ht : t.length ≤ n := by simpa using hl
      cases hm : matchAt (c :: t) with
      | none =>
        rw [collapse_cons_none c t hm,
          collapse_cons_none c _ (matchAt_collapse_none c t hm), ih t ht]
      | some gn =>
        rcases matchAt_eq_some _ gn.1 gn.2 hm with ⟨u, hl2, -, -⟩ | ⟨u, hl2, -, -⟩
        · have hu : (u.drop (countSlashes u)).length ≤ n := by
            have : (c :: t).length = 6 + u.length := by rw [hl2]; simp; omega
            simp only [List.length_cons] at this
            simp only [List.length_drop]
            omega
          have h0 := countSlashes_collapse _ (countSlashes_drop u)
          rw [hl2, collapse_http]
          have e : "http://".data ++ collapse (u.drop (countSlashes u))
              = "http:/".data ++ ('/' :: collapse (u.drop (countSlashes u))) := rfl
          rw [e, collapse_http]
          simp [countSlashes, h0, ih _ hu]
        · have hu : (u.drop (countSlashes u)).length ≤ n := by
            have : (c :: t).length = 7 + u.length := by rw [hl2]; simp; omega
            simp only [List.length_cons] at this
            simp only [List.length_drop]
            omega
          have h0 := countSlashes_collapse _ (countSlashes_drop u)
          rw [hl2, collapse_https]
          have e : "https://".data ++ collapse (u.drop (countSlashes u))
              = "https:/".data ++ ('/' :: collapse (u.drop (countSlashes u))) := rfl
          rw [e, collapse_https]
          simp [countSlashes, h0, ih _ hu]

/-- Scanning twice changes nothing more: the output of the scan holds only matches that
are already in the replaced form. -/
theorem collapse_idem (l : List Char) : collapse (collapse l) = collapse l :=
  collapse_idem_aux l.length l le_rfl


/-! ### `formatURL` through the scan -/

theorem formatURL_of_http (s : String) (h : "http".data.isPrefixOf (collapse s.data) = true) :
    formatURL s = ⟨collapse s.data⟩ := by
  simp [formatURL, HasPrefix, h]

theorem formatURL_of_not_http (s : String)
    (h : "http".data.isPrefixOf (collapse s.data) = false) :
    formatURL s = "https://" ++ ⟨collapse s.data⟩ := by
  simp [formatURL, HasPrefix, h]

theorem countSlashes_of_not_slash (r : String) (h : HasPrefix r "/" = false) :
    countSlashes r.data = 0 := by
  unfold HasPrefix at h
  cases hr : r.data with
  | nil => simp [countSlashes]
  | cons c t =>
    rw [hr] at h
    by_cases hc : c = '/'
    · subst hc; simp [List.isPrefixOf] at h
    · simp [countSlashes, hc]

theorem collapse_run (n : Nat) (r : List Char) (hr : countSlashes r = 0)
    (h1 : ¬ "http:/".data <:+: r) (h2 : ¬ "https:/".data <:+: r) :
    collapse ("http:/".data ++ (List.replicate n '/' ++ r)) = "http://".data ++ r ∧
    collapse ("https:/".data ++ (List.replicate n '/' ++ r)) = "https://".data ++ r := by
  have hc : countSlashes (List.replicate n '/' ++ r) = n := by
    rw [countSlashes_replicate, hr]; rfl
  have hd : List.drop n (List.replicate n '/' ++ r) = r := by
    rw [List.drop_append_of_le_length (by simp)]
    simp
  constructor
  · rw [collapse_http, hc, hd, collapse_eq_self r h1 h2]
  · rw [collapse_https, hc, hd, collapse_eq_self r h1 h2]

theorem data_of_hasHttp (s : String) (h : HasPrefix s "http" = true) :
    ∃ r, s.data = 'h' :: 't' :: 't' :: 'p' :: r := by
  unfold HasPrefix at h
  generalize s.data = l at h
  rcases l with _ | ⟨a, _ | ⟨b, _ | ⟨c, _ | ⟨d, r⟩⟩⟩⟩ <;> simp [List.isPrefixOf] at h
  obtain ⟨ha, hb, hc, hd⟩ := h
  exact ⟨r, by rw [← ha, ← hb, ← hc, ← hd]⟩

/-- Text that begins with `http` still does after the scan. -/
theorem collapse_keeps_http (r : List Char) :
    "http".data.isPrefixOf (collapse ('h' :: 't' :: 't' :: 'p' :: r)) = true := by
  cases hm : matchAt ('h' :: 't' :: 't' :: 'p' :: r) with
  | none =>
    rw [collapse_cons_none _ _ hm, collapse_cons_none _ _ (matchAt_head 't' _ (by decide)),
      collapse_cons_none _ _ (matchAt_head 't' _ (by decide)),
      collapse_cons_none _ _ (matchAt_head 'p' _ (by decide))]
    simp [List.isPrefixOf]
  | some gn =>
    rw [collapse_cons_some _ _ gn.1 gn.2 hm]
    rcases matchAt_eq_some _ _ _ hm with ⟨u, -, hg, -⟩ | ⟨u, -, hg, -⟩ <;>
      rw [hg] <;> simp [List.isPrefixOf]

theorem formatURL_hasHttp (s : String) : HasPrefix (formatURL s) "http" = true := by
  cases h : "http".data.isPrefixOf (collapse s.data) with
  | true => rw [formatURL_of_http s h]; exact h
  | false => rw [formatURL_of_not_http s h]; rfl

theorem countSlashes_collapse_iff (l : List Char) :
    countSlashes (collapse l) = 0 ↔ countSlashes l = 0 := by
  refine ⟨fun h => ?_, countSlashes_collapse l⟩
  by_contra hne
  obtain ⟨u, rfl⟩ := (countSlashes_ne_zero l).mp hne
  rw [collapse_cons_none _ _ (matchAt_head '/' u (by decide))] at h
  simp [countSlashes] at h

theorem countSlashes_eq_zero_iff (s : String) :
    countSlashes s.data = 0 ↔ HasPrefix s "/" = false := by
  refine ⟨fun h => ?_, countSlashes_of_not_slash s⟩
  unfold HasPrefix
  cases hs : s.data with
  | nil => rfl
  | cons c t =>
    rw [hs] at h
    by_cases hc : c = '/'
    · simp [countSlashes, hc] at h
    · simp [List.isPrefixOf, Ne.symm hc]

theorem countSlashes_of_http (l : List Char) (h : "http".data.isPrefixOf l = true) :
    countSlashes l = 0 := by
  rcases l with _ | ⟨a, t⟩
  · rfl
  · have ha : a = 'h' := by
      cases t <;> simp [List.isPrefixOf] at h
      exact h.1.symm
    subst ha
    simp [countSlashes]

/-- The second pass of `formatURL`, for every input: it keeps the scheme the first pass
gave and drops the slashes the first pass left after it. -/
theorem formatURL_twice (s : String) :
    formatURL (formatURL s) = formatURL s ↔ countSlashes (collapse s.data) = 0 := by
  cases hp : "http".data.isPrefixOf (collapse s.data) with
  | true =>
    have h1 : formatURL s = ⟨collapse s.data⟩ := formatURL_of_http s hp
    have h2 : formatURL ⟨collapse s.data⟩ = ⟨collapse s.data⟩ := by
      have := formatURL_of_http ⟨collapse s.data⟩ (by
        show "http".data.isPrefixOf (collapse (collapse s.data)) = true
        rw [collapse_idem]; exact hp)
      rw [this]
      exact congrArg String.mk (collapse_idem s.data)
    rw [h1, h2]
    simp [countSlashes_of_http _ hp]
  | false =>
    have h1 : formatURL s = "https://" ++ ⟨collapse s.data⟩ := formatURL_of_not_http s hp
    set c := collapse s.data with hc
    have hd : ("https://" ++ (⟨c⟩ : String)).data = "https:/".data ++ ('/' :: c) := rfl
    have hk : List.drop (countSlashes ('/' :: c)) ('/' :: c) = List.drop (countSlashes c) c := by
      simp [countSlashes]
    have h2 : collapse ("https://" ++ (⟨c⟩ : String)).data
        = "https://".data ++ collapse (List.drop (countSlashes c) c) := by
      rw [hd, collapse_https, hk]
    have h3 : formatURL ("https://" ++ (⟨c⟩ : String))
        = ⟨"https://".data ++ collapse (List.drop (countSlashes c) c)⟩ := by
      rw [formatURL_of_http _ (by rw [h2]; rfl), h2]
    rw [h1, h3]
    constructor
    · intro h
      have hl : "https://".data ++ collapse (List.drop (countSlashes c) c)
          = "https://".data ++ c := congrArg String.data h
      have hy := List.append_cancel_left hl
      rw [← hy]
      exact countSlashes_collapse _ (countSlashes_drop c)
    · intro h0
      apply String.ext
      show "https://".data ++ collapse (List.drop (countSlashes c) c) = "https://".data ++ c
      rw [h0, List.drop_zero, hc, collapse_idem]

/-! ### Lengths -/

theorem utf8ByteSize_go_eq_zero (l : List Char) : String.utf8ByteSize.go l = 0 ↔ l = [] := by
  cases l with
  | nil => simp [String.utf8ByteSize.go]
  | cons c t =>
    have := Char.utf8Size_pos c
    simp [String.utf8ByteSize.go]
    omega

theorem len_rooted (p : String) (hr : HasPrefix p "/" = true) : len p = 1 → p = "/" := by
  obtain ⟨l⟩ := p
  intro h
  rcases l with _ | ⟨c, t⟩
  · exact absurd hr (by decide)
  · have hc : c = '/' := by
      by_contra hne
      have : HasPrefix ⟨c :: t⟩ "/" = false := by
        simp [HasPrefix, List.isPrefixOf, Ne.symm hne]
      rw [this] at hr
      exact absurd hr (by decide)
    subst hc
    have ht : String.utf8ByteSize.go t = 0 := by
      have h1 : String.utf8ByteSize.go t + ('/' : Char).utf8Size = 1 := h
      have h2 : ('/' : Char).utf8Size = 1 := by decide
      omega
    rw [(utf8ByteSize_go_eq_zero t).mp ht]

/-- A normalised path is one byte long exactly when it is the root path. -/
theorem len_path_eq_one (ctx : Request) : len ctx.path = 1 ↔ ctx.path = "/" :=
  ⟨len_rooted ctx.path ctx.rooted, fun h => by rw [h]; decide⟩

/-! ### The cache -/

theorem Get_miss (c : LRU) (key : String) (now : Int) (h : (c.Get key now).1 = none) :
    (c.Get key now).2 = c := by
  unfold LRU.Get at h ⊢
  cases hl : c.lookup key with
  | none => rfl
  | some e =>
    simp only [hl] at h ⊢
    by_cases hx : now > e.expiresAt
    · simp [hx]
    · simp [hx] at h

theorem lookup_key (c : LRU) (key : String) (e : Entry) (h : c.lookup key = some e) :
    e.key = key := by
  have := List.find?_some h
  simpa using this

theorem lookup_front (c : LRU) (key : String) (e : Entry) (l : List Entry) (h : e.key = key) :
    LRU.lookup { c with entries := e :: l } key = some e := by
  simp [LRU.lookup, List.find?, h]

/-- A hit returns the value stored under the key and leaves that entry stored. -/
theorem Get_hit (c : LRU) (key : String) (now : Int) (v : CachedResponse)
    (h : (c.Get key now).1 = some v) :
    ∃ e, c.lookup key = some e ∧ e.value = v ∧ (c.Get key now).2.lookup key = some e := by
  unfold LRU.Get at h ⊢
  cases hl : c.lookup key with
  | none => simp [hl] at h
  | some e =>
    simp only [hl] at h ⊢
    by_cases hx : now > e.expiresAt
    · simp [hx] at h
    · simp only [hx, if_false, Option.some.injEq] at h ⊢
      exact ⟨e, rfl, h, lookup_front c key e _ (lookup_key c key e hl)⟩

/-- After `Add` the key holds the value added. -/
theorem lookup_Add (c : LRU) (key : String) (v : CachedResponse) (now : Int) :
    (c.Add key v now).lookup key = some ⟨key, v, now + c.ttl⟩ := by
  unfold LRU.Add
  cases hl : c.lookup key with
  | some e => exact lookup_front c key _ _ rfl
  | none =>
    simp only []
    by_cases hs : c.size > 0 ∧ (⟨key, v, now + c.ttl⟩ :: c.entries : List Entry).length > c.size
    · rw [if_pos hs]
      rcases hc : c.entries with _ | ⟨a, t⟩
      · rw [hc] at hs; simp at hs; omega
      · simp [LRU.lookup, List.dropLast, List.find?]
    · rw [if_neg hs]
      exact lookup_front c key _ _ rfl

/-! ### `handleRequest`, branch by branch -/

theorem handleRequest_notFound {Doc Sel : Type} (env : Env Doc Sel) (c : LRU) (ctx : Request)
    (hp : ctx.path ≠ "/") : handleRequest env c ctx = ⟨{ statusCode := 404 }, c, []⟩ := by
  have : len ctx.path ≠ 1 := fun h => hp ((len_path_eq_one ctx).mp h)
  simp [handleRequest, this]

theorem handleRequest_hit {Doc Sel : Type} (env : Env Doc Sel) (c : LRU) (ctx : Request)
    (val : CachedResponse) (hp : ctx.path = "/")
    (hget : (c.Get (requestKey ctx) env.nowGet).1 = some val) :
    handleRequest env c ctx =
      ⟨{ contentType := "application/json",
         cacheControl := some (hitCacheControl (age env.nowSince val.Timestamp)),
         body := val.Data },
       (c.Get (requestKey ctx) env.nowGet).2,
       [.formatURL (ctx.FormValue "url"), .cacheGet (requestKey ctx)]⟩ := by
  have h1 : len ctx.path = 1 := (len_path_eq_one ctx).mpr hp
  unfold requestKey at hget ⊢
  rcases hG : c.Get (cacheKey (formatURL (ctx.FormValue "url")) (ctx.FormValue "selector")
    (isRaw ctx)) env.nowGet with ⟨v, c1⟩
  rw [hG] at hget
  simp only at hget
  subst hget
  simp [handleRequest, h1, hG]

theorem handleRequest_fetch_error {Doc Sel : Type} (env : Env Doc Sel) (c : LRU)
    (ctx : Request) (err : String) (hp : ctx.path = "/")
    (hget : (c.Get (requestKey ctx) env.nowGet).1 = none)
    (hload : (loadSite env (formatURL (ctx.FormValue "url"))).1 = .error err) :
    handleRequest env c ctx =
      ⟨replyError err 500, c,
       [.formatURL (ctx.FormValue "url"), .cacheGet (requestKey ctx)] ++
         (loadSite env (formatURL (ctx.FormValue "url"))).2⟩ := by
  have h1 : len ctx.path = 1 := (len_path_eq_one ctx).mpr hp
  have hc := Get_miss c _ _ hget
  unfold requestKey at hget hc ⊢
  rcases hG : c.Get (cacheKey (formatURL (ctx.FormValue "url")) (ctx.FormValue "selector")
    (isRaw ctx)) env.nowGet with ⟨v, c1⟩
  rw [hG] at hget hc
  simp only at hget hc
  subst hget hc
  rcases hL : loadSite env (formatURL (ctx.FormValue "url")) with ⟨r, evs⟩
  rw [hL] at hload
  simp only at hload
  subst hload
  simp [handleRequest, h1, hG, hL]

theorem handleRequest_stored {Doc Sel : Type} (env : Env Doc Sel) (c : LRU)
    (ctx : Request) (site : Doc) (b : String) (hp : ctx.path = "/")
    (hget : (c.Get (requestKey ctx) env.nowGet).1 = none)
    (hload : (loadSite env (formatURL (ctx.FormValue "url"))).1 = .ok site)
    (hjson : env.marshalIndent (responseOf env ctx site) = .ok b) :
    (handleRequest env c ctx).reply =
      { contentType := "application/json",
        cacheControl := some "public, max-age=3600, immutable", body := b } ∧
    (handleRequest env c ctx).cache = c.Add (requestKey ctx) ⟨env.nowStamp, b⟩ env.nowAdd := by
  have h1 : len ctx.path = 1 := (len_path_eq_one ctx).mpr hp
  have hc := Get_miss c _ _ hget
  unfold requestKey at hget hc ⊢
  unfold responseOf at hjson
  rcases hG : c.Get (cacheKey (formatURL (ctx.FormValue "url")) (ctx.FormValue "selector")
    (isRaw ctx)) env.nowGet with ⟨v, c1⟩
  rw [hG] at hget hc
  simp only at hget hc
  subst hget hc
  rcases hL : loadSite env (formatURL (ctx.FormValue "url")) with ⟨r, evs⟩
  rw [hL] at hload
  simp only at hload
  subst hload
  simp [handleRequest, h1, hG, hL, hjson]

/-! ### Durations -/

theorem secondsRounded_of_nonneg (d : Int) (h : 0 ≤ d) :
    secondsRounded d =
      if 2 * (d % 1000000000) < 1000000000 then d / 1000000000
      else if 2 * (d % 1000000000) > 1000000000 then d / 1000000000 + 1
      else if (d / 1000000000) % 2 = 0 then d / 1000000000
      else d / 1000000000 + 1 := by
  have hq : Int.tdiv d 1000000000 = d / 1000000000 := Int.tdiv_eq_ediv h (by decide)
  have hr : Int.tmod d 1000000000 = d % 1000000000 := Int.tmod_eq_emod h (by decide)
  have hr0 : 0 ≤ d % 1000000000 := Int.emod_nonneg d (by decide)
  have hd : ¬ d < 0 := by omega
  simp only [secondsRounded, Second, hq, hr, hd, if_false]
  have e1 : (2 * (d % 1000000000).natAbs < (1000000000 : Int).natAbs)
      ↔ 2 * (d % 1000000000) < 1000000000 := by omega
  have e2 : (2 * (d % 1000000000).natAbs > (1000000000 : Int).natAbs)
      ↔ 2 * (d % 1000000000) > 1000000000 := by omega
  simp only [e1, e2]

theorem secondsRounded_mono (d1 d2 : Int) (h0 : 0 ≤ d1) (h : d1 ≤ d2) :
    secondsRounded d1 ≤ secondsRounded d2 := by
  rw [secondsRounded_of_nonneg d1 h0, secondsRounded_of_nonneg d2 (le_trans h0 h)]
  split_ifs <;> omega

theorem age_of_fresh (now c : Int) (h0 : 0 ≤ now - c) (h1 : now - c ≤ Hour) :
    age now c = Hour - (now - c) := by
  unfold Hour Second at h1
  simp only [age, Since, timeAdd, timeSub, durationAbs, Hour, Second, minDuration,
    maxDuration]
  split_ifs <;> omega

theorem secondsRounded_nearest (d : Int) (h : 0 ≤ d) :
    NearestSeconds (secondsRounded d) d := by
  rw [secondsRounded_of_nonneg d h]
  unfold NearestSeconds Second
  split_ifs <;> omega

theorem nearestSeconds_unique (n m d : Int) (hn : NearestSeconds n d)
    (hm : NearestSeconds m d) : n = m := by
  unfold NearestSeconds Second at hn hm
  obtain ⟨hn1, hn2, hn3⟩ := hn
  obtain ⟨hm1, hm2, hm3⟩ := hm
  by_cases hne : 2 * (n * 1000000000 - d) = 1000000000 ∨ 2 * (d - n * 1000000000) = 1000000000
  · have := hn3 hne
    by_cases hme : 2 * (m * 1000000000 - d) = 1000000000 ∨
        2 * (d - m * 1000000000) = 1000000000
    · have := hm3 hme
      omega
    · omega
  · omega

/-! ### Form values and the cache key -/

theorem cacheKey_data (u s : String) (r : Bool) :
    (cacheKey u s r).data = (u ++ s).data ++ (FormatBool r).data := rfl

theorem cacheKey_true_ne_false (u1 s1 u2 s2 : String) :
    cacheKey u1 s1 true ≠ cacheKey u2 s2 false := by
  intro h
  have hd := congrArg String.data h
  rw [cacheKey_data, cacheKey_data] at hd
  have hr := congrArg List.reverse hd
  simp [FormatBool] at hr

theorem cacheKey_inj (u1 s1 u2 s2 : String) (r1 r2 : Bool) :
    cacheKey u1 s1 r1 = cacheKey u2 s2 r2 ↔ r1 = r2 ∧ u1 ++ s1 = u2 ++ s2 := by
  constructor
  · intro h
    cases r1 <;> cases r2
    · refine ⟨rfl, String.ext ?_⟩
      have hd := congrArg String.data h
      rw [cacheKey_data, cacheKey_data] at hd
      exact List.append_cancel_right hd
    · exact absurd h.symm (cacheKey_true_ne_false u2 s2 u1 s1)
    · exact absurd h (cacheKey_true_ne_false u1 s1 u2 s2)
    · refine ⟨rfl, String.ext ?_⟩
      have hd := congrArg String.data h
      rw [cacheKey_data, cacheKey_data] at hd
      exact List.append_cancel_right hd
  · rintro ⟨rfl, h⟩
    unfold cacheKey
    rw [h]

/-- The handler's first two calls on a request to `/`: the normalisation of the `url`
value and the lookup under the request's key. -/
theorem handleRequest_trace_start {Doc Sel : Type} (env : Env Doc Sel) (c : LRU)
    (ctx : Request) (hp : ctx.path = "/") :
    (handleRequest env c ctx).trace.take 2
      = [.formatURL (ctx.FormValue "url"), .cacheGet (requestKey ctx)] := by
  have h1 : len ctx.path = 1 := (len_path_eq_one ctx).mpr hp
  unfold handleRequest requestKey
  simp only [h1, ne_eq, not_true_eq_false, if_false]
  rcases c.Get _ env.nowGet with ⟨_ | v, c1⟩
  · rcases loadSite env _ with ⟨_ | site, evs⟩
    · simp
    · simp only []
      cases env.marshalIndent _ <;> simp
  · simp

/-! ## The claims about `formatURL` -/

/-- C1: a run of one slash or more after `http:` or `https:` is collapsed to exactly two
slashes when what follows the run holds no further scheme: for `n ≥ 1` and `r` that does
not begin with a slash and contains neither `http:/` nor `https:/`, the result is
`http://` (or `https://`) followed by `r`; in particular for the two inputs of the spec. -/
theorem formatURL_collapses_run (n : Nat) (r : String) (hn : 1 ≤ n)
    (hr : HasPrefix r "/" = false) (h1 : ¬ Contains r "http:/")
    (h2 : ¬ Contains r "https:/") :
    formatURL ("http:" ++ slashes n ++ r) = "http://" ++ r ∧
    formatURL ("https:" ++ slashes n ++ r) = "https://" ++ r ∧
    formatURL "http:////example.com" = "http://example.com" ∧
    formatURL "https://example.com" = "https://example.com" := by
  obtain ⟨m, rfl⟩ : ∃ m, n = m + 1 := ⟨n - 1, by omega⟩
  have hrun := collapse_run m r.data (countSlashes_of_not_slash r hr) h1 h2
  have e1 : ("http:" ++ slashes (m + 1) ++ r).data
      = "http:/".data ++ (List.replicate m '/' ++ r.data) := by
    simp [slashes, List.replicate_succ]
  have e2 : ("https:" ++ slashes (m + 1) ++ r).data
      = "https:/".data ++ (List.replicate m '/' ++ r.data) := by
    simp [slashes, List.replicate_succ]
  refine ⟨?_, ?_, by decide, by decide⟩
  · rw [formatURL_of_http _ (by rw [e1, hrun.1]; rfl)]
    apply String.ext
    rw [e1, hrun.1]; rfl
  · rw [formatURL_of_http _ (by rw [e2, hrun.2]; rfl)]
    apply String.ext
    rw [e2, hrun.2]; rfl

/-- C1 at `n = 4` and `r = "example.com"`. -/
theorem formatURL_collapses_run_witness :
    formatURL ("http:" ++ slashes 4 ++ "example.com") = "http://" ++ "example.com" ∧
    formatURL ("https:" ++ slashes 4 ++ "example.com") = "https://" ++ "example.com" ∧
    formatURL "http:////example.com" = "http://example.com" ∧
    formatURL "https://example.com" = "https://example.com" :=
  formatURL_collapses_run 4 "example.com" (by decide) (by decide) (by decide) (by decide)

/-- C2: the result of `formatURL` always begins with `http`; an input that does not begin
with `http` and contains neither `http:/` nor `https:/` comes back with `https://` put
before it, as `example.com` does; an input that begins with `http` comes back as the
scan leaves it, with nothing put before it. In general `https://` is put before the
scanned string exactly when that string does not begin with `http`. -/
theorem formatURL_prepends_scheme :
    (∀ s : String, formatURL s = "https://" ++ ⟨collapse s.data⟩ ↔
      HasPrefix ⟨collapse s.data⟩ "http" = false) ∧
    (∀ s : String, HasPrefix (formatURL s) "http" = true) ∧
    (∀ s : String, HasPrefix s "http" = false → ¬ Contains s "http:/" →
      ¬ Contains s "https:/" → formatURL s = "https://" ++ s) ∧
    formatURL "example.com" = "https://example.com" ∧
    (∀ s : String, HasPrefix s "http" = true →
      formatURL s = ⟨collapse s.data⟩ ∧ formatURL s ≠ "https://" ++ ⟨collapse s.data⟩) := by
  have hne : ∀ l : List Char, (⟨l⟩ : String) ≠ "https://" ++ ⟨l⟩ := by
    intro l h
    have hl : l.length = ("https://".data ++ l).length :=
      congrArg (fun x : String => x.data.length) h
    rw [List.length_append] at hl
    have h8 : ("https://" : String).data.length = 8 := rfl
    omega
  refine ⟨?_, formatURL_hasHttp, ?_, by decide, ?_⟩
  · intro s
    cases hp : "http".data.isPrefixOf (collapse s.data) with
    | true =>
      rw [formatURL_of_http s hp]
      have : HasPrefix ⟨collapse s.data⟩ "http" = true := hp
      simp [this, hne]
    | false =>
      rw [formatURL_of_not_http s hp]
      have : HasPrefix ⟨collapse s.data⟩ "http" = false := hp
      simp [this]
  · intro s hs h1 h2
    have hc : collapse s.data = s.data := collapse_eq_self s.data h1 h2
    have hp : "http".data.isPrefixOf (collapse s.data) = false := by rw [hc]; exact hs
    rw [formatURL_of_not_http s hp, hc]
  · intro s hs
    obtain ⟨r, hr⟩ := data_of_hasHttp s hs
    have hp : "http".data.isPrefixOf (collapse s.data) = true := by
      rw [hr]; exact collapse_keeps_http r
    rw [formatURL_of_http s hp]
    exact ⟨rfl, hne _⟩

/-- C2 at `example.com`, which gets the scheme, and at `http:///a`, which does not. -/
theorem formatURL_prepends_scheme_witness :
    HasPrefix (formatURL "") "http" = true ∧
    formatURL "example.com" = "https://" ++ "example.com" ∧
    formatURL "http:///a" = "http://a" :=
  ⟨formatURL_prepends_scheme.2.1 "",
    formatURL_prepends_scheme.2.2.1 "example.com" (by decide) (by decide) (by decide),
    (formatURL_prepends_scheme.2.2.2.2 "http:///a" (by decide)).1⟩

/-- C10, as the code has it: `formatURL` leaves its own output unchanged exactly when the
input does not begin with a slash. For an input that begins with a slash the first pass
puts `https://` before the slashes and the second pass collapses them. -/
theorem formatURL_idempotent_iff (s : String) :
    formatURL (formatURL s) = formatURL s ↔ HasPrefix s "/" = false := by
  rw [formatURL_twice, countSlashes_collapse_iff, countSlashes_eq_zero_iff]

/-- C10 fails as stated: `/x` becomes `https:///x`, which becomes `https://x`. -/
theorem formatURL_not_idempotent :
    formatURL "/x" = "https:///x" ∧ formatURL (formatURL "/x") = "https://x" ∧
    formatURL (formatURL "/x") ≠ formatURL "/x" := by
  decide

/-! ## The claims about `loadSite` and `handleRequest` -/

/-- C5: when `http.Get` completes with a status code other than 200, `loadSite` returns
the error `status code error: <code> <status>` and no document, and the body is not
handed to the HTML parser; whenever the parser is called, the status code was 200 and
what it receives is the body of that response. -/
theorem loadSite_accepts_only_200 {Doc Sel : Type} (env : Env Doc Sel) (url : String)
    (res : HttpResponse) (hget : env.httpGet url = .ok res) (hs : res.StatusCode ≠ 200) :
    (loadSite env url).1
      = .error ("status code error: " ++ toString res.StatusCode ++ " " ++ res.Status) ∧
    (∀ body, Event.newDocumentFromReader body ∉ (loadSite env url).2) ∧
    (∀ (env2 : Env Doc Sel) (url2 body : String),
      Event.newDocumentFromReader body ∈ (loadSite env2 url2).2 →
      ∃ r, env2.httpGet url2 = .ok r ∧ r.StatusCode = 200 ∧ r.Body = body) := by
  refine ⟨by simp [loadSite, hget, hs], by simp [loadSite, hget, hs], ?_⟩
  intro env2 url2 body hmem
  unfold loadSite at hmem
  cases hg : env2.httpGet url2 with
  | error e => simp [hg] at hmem
  | ok r =>
    by_cases h200 : r.StatusCode = 200
    · simp [hg, h200] at hmem
      exact ⟨r, rfl, h200, hmem.symm⟩
    · simp [hg, h200] at hmem

/-- C6: a request whose path is not exactly `/` gets status 404 and nothing else happens:
no call is made (no normalisation, no cache lookup, no fetch, no store) and the cache is
the one before; a request to `/` does not take that branch: it goes on to normalise the
URL and its status is not 404. -/
theorem handleRequest_path_gate {Doc Sel : Type} (env : Env Doc Sel) (c : LRU)
    (ctx : Request) :
    (ctx.path ≠ "/" → handleRequest env c ctx = ⟨{ statusCode := 404 }, c, []⟩) ∧
    (ctx.path = "/" →
      (handleRequest env c ctx).reply.statusCode ≠ 404 ∧
      (handleRequest env c ctx).trace.head? = some (.formatURL (ctx.FormValue "url"))) := by
  refine ⟨handleRequest_notFound env c ctx, fun hp => ?_⟩
  have h1 : len ctx.path = 1 := (len_path_eq_one ctx).mpr hp
  unfold handleRequest
  simp only [h1, ne_eq, not_true_eq_false, if_false]
  rcases c.Get _ env.nowGet with ⟨_ | v, c1⟩
  · rcases loadSite env _ with ⟨_ | site, evs⟩
    · simp [replyError]
    · simp only []
      cases env.marshalIndent _ <;> simp [replyError]
  · simp

/-- C5 at a page that answers 404. -/
theorem loadSite_accepts_only_200_witness :
    (loadSite demoEnv "https://missing.example").1
      = .error "status code error: 404 404 Not Found" :=
  (loadSite_accepts_only_200 demoEnv "https://missing.example" ⟨404, "404 Not Found", ""⟩
    rfl (by decide)).1

/-- C6 at the path `/health`. -/
theorem handleRequest_path_gate_witness :
    handleRequest demoEnv cache otherPathReq = ⟨{ statusCode := 404 }, cache, []⟩ ∧
    (handleRequest demoEnv cache demoReq).reply.statusCode ≠ 404 :=
  ⟨(handleRequest_path_gate demoEnv cache otherPathReq).1 (by decide),
    ((handleRequest_path_gate demoEnv cache demoReq).2 (by decide)).1⟩

/-- C4: a request to `/` that misses the cache and whose `loadSite` returns the error `e`
gets status 500 with `e` as body, and the cache after the request is the cache before
it: no `Add` is made under any key. -/
theorem failed_fetch_caches_nothing {Doc Sel : Type} (env : Env Doc Sel) (c : LRU)
    (ctx : Request) (e : String) (hp : ctx.path = "/")
    (hmiss : (c.Get (requestKey ctx) env.nowGet).1 = none)
    (herr : (loadSite env (formatURL (ctx.FormValue "url"))).1 = .error e) :
    (handleRequest env c ctx).reply.statusCode = 500 ∧
    (handleRequest env c ctx).reply.body = e ∧
    (handleRequest env c ctx).cache = c ∧
    (∀ k v, Event.cacheAdd k v ∉ (handleRequest env c ctx).trace) := by
  rw [handleRequest_fetch_error env c ctx e hp hmiss herr]
  refine ⟨rfl, rfl, rfl, ?_⟩
  intro k v hmem
  simp only [List.mem_append, List.mem_cons, List.mem_singleton, List.not_mem_nil,
    or_false, reduceCtorEq, false_or] at hmem
  unfold loadSite at hmem
  cases hg : env.httpGet (formatURL (ctx.FormValue "url")) with
  | error e2 => simp [hg] at hmem
  | ok r =>
    by_cases h200 : r.StatusCode = 200
    · simp [hg, h200] at hmem
    · simp [hg, h200] at hmem

/-- C4 at a page that answers 404, on the empty cache. -/
theorem failed_fetch_caches_nothing_witness :
    (handleRequest demoEnv cache missingReq).reply.statusCode = 500 ∧
    (handleRequest demoEnv cache missingReq).reply.body
      = "status code error: 404 404 Not Found" ∧
    (handleRequest demoEnv cache missingReq).cache = cache :=
  have h := failed_fetch_caches_nothing demoEnv cache missingReq
    "status code error: 404 404 Not Found" (by decide) (by decide) rfl
  ⟨h.1, h.2.1, h.2.2.1⟩

/-- C3: a request to `/` that misses the cache, loads its page and encodes the response as
`b` replies with body `b` and leaves, under its cache key, the payload `b` with the
timestamp taken; and a request with the same url, selector and raw flag whose lookup
finds that entry (in whatever cache it runs on) replies with body `b` and content type
`application/json`, makes no call after the lookup (no fetch, no store), and leaves the
entry under the key as it was. -/
theorem cached_reply_is_verbatim {Doc Sel : Type} (env1 env2 : Env Doc Sel) (c1 c2 : LRU)
    (req1 req2 : Request) (site : Doc) (b : String)
    (hp1 : req1.path = "/") (hp2 : req2.path = "/")
    (hurl : req2.FormValue "url" = req1.FormValue "url")
    (hsel : req2.FormValue "selector" = req1.FormValue "selector")
    (hraw : isRaw req2 = isRaw req1)
    (hmiss : (c1.Get (requestKey req1) env1.nowGet).1 = none)
    (hload : (loadSite env1 (formatURL (req1.FormValue "url"))).1 = .ok site)
    (hjson : env1.marshalIndent (responseOf env1 req1 site) = .ok b)
    (hhit : (c2.Get (requestKey req2) env2.nowGet).1 = some ⟨env1.nowStamp, b⟩) :
    (handleRequest env1 c1 req1).reply.body = b ∧
    ((handleRequest env1 c1 req1).cache.lookup (requestKey req1)).map Entry.value
      = some ⟨env1.nowStamp, b⟩ ∧
    requestKey req2 = requestKey req1 ∧
    (handleRequest env2 c2 req2).reply.body = b ∧
    (handleRequest env2 c2 req2).reply.contentType = "application/json" ∧
    (handleRequest env2 c2 req2).trace
      = [.formatURL (req2.FormValue "url"), .cacheGet (requestKey req2)] ∧
    ((handleRequest env2 c2 req2).cache.lookup (requestKey req2)).map Entry.value
      = some ⟨env1.nowStamp, b⟩ ∧
    (handleRequest env2 c2 req2).cache.lookup (requestKey req2)
      = c2.lookup (requestKey req2) := by
  obtain ⟨hr1, hc1⟩ := handleRequest_stored env1 c1 req1 site b hp1 hmiss hload hjson
  have h2 := handleRequest_hit env2 c2 req2 ⟨env1.nowStamp, b⟩ hp2 hhit
  obtain ⟨e, he, hv, hl⟩ := Get_hit c2 _ _ _ hhit
  refine ⟨by rw [hr1], by rw [hc1, lookup_Add]; rfl, ?_, by rw [h2], by rw [h2], by rw [h2],
    ?_, ?_⟩
  · simp [requestKey, hurl, hsel, hraw]
  · rw [h2]; simp only []; rw [hl]; simp [hv]
  · rw [h2]; simp only []; rw [hl, he]

/-- C3 for the same request made twice, the second on the cache the first left. -/
theorem cached_reply_is_verbatim_witness :
    (handleRequest demoEnv cache demoReq).reply.body = "<p> hi </p>" ∧
    (handleRequest demoEnv (handleRequest demoEnv cache demoReq).cache demoReq).reply.body
      = "<p> hi </p>" ∧
    (handleRequest demoEnv (handleRequest demoEnv cache demoReq).cache demoReq).trace
      = [.formatURL "example.com", .cacheGet "https://example.compfalse"] :=
  have h := cached_reply_is_verbatim demoEnv demoEnv cache
    (handleRequest demoEnv cache demoReq).cache demoReq demoReq "<p> hi </p>" "<p> hi </p>"
    (by decide) (by decide) rfl rfl rfl (by decide) rfl rfl (by decide)
  ⟨h.1, h.2.2.2.1, h.2.2.2.2.2.1⟩

/-- C9: the cache key is the url, then the selector, then `true` or `false`, with nothing
between them, and the handler looks the request up under the key made of the normalised
url, the selector and the raw flag; two keys are equal exactly when the flags are equal
and the urls followed by the selectors are equal. So a raw-mode key is never a text-mode
key, while different pairs of url and selector that concatenate alike share a key, as
`https://a` with `b` and `https://ab` with the empty selector do. -/
theorem cacheKey_eq_iff (u1 s1 u2 s2 : String) (r1 r2 : Bool) :
    cacheKey u1 s1 r1 = u1 ++ s1 ++ (if r1 then "true" else "false") ∧
    (cacheKey u1 s1 r1 = cacheKey u2 s2 r2 ↔ r1 = r2 ∧ u1 ++ s1 = u2 ++ s2) ∧
    cacheKey u1 s1 true ≠ cacheKey u2 s2 false ∧
    (("https://a", "b") ≠ ("https://ab", "") ∧
      cacheKey "https://a" "b" r1 = cacheKey "https://ab" "" r1) ∧
    (∀ {Doc Sel : Type} (env : Env Doc Sel) (c : LRU) (ctx : Request), ctx.path = "/" →
      (handleRequest env c ctx).trace.take 2
        = [.formatURL (ctx.FormValue "url"),
           .cacheGet (cacheKey (formatURL (ctx.FormValue "url")) (ctx.FormValue "selector")
             (isRaw ctx))]) := by
  refine ⟨rfl, cacheKey_inj u1 s1 u2 s2 r1 r2, cacheKey_true_ne_false u1 s1 u2 s2,
    ⟨by decide, ?_⟩, ?_⟩
  · exact (cacheKey_inj _ _ _ _ r1 r1).mpr ⟨rfl, by decide⟩
  · intro Doc Sel env c ctx hp
    exact handleRequest_trace_start env c ctx hp

/-- C9 at the two colliding requests of the claim and at the handler's lookup. -/
theorem cacheKey_eq_iff_witness :
    cacheKey "https://a" "b" false = "https://abfalse" ∧
    cacheKey "https://a" "b" false = cacheKey "https://ab" "" false ∧
    (handleRequest demoEnv cache demoReq).trace.take 2
      = [.formatURL "example.com", .cacheGet "https://example.compfalse"] :=
  have h := cacheKey_eq_iff "https://a" "b" "https://ab" "" false false
  ⟨h.1, h.2.1.mpr ⟨rfl, by decide⟩, h.2.2.2.2 demoEnv cache demoReq (by decide)⟩

/-! ## The claims about the age of a cache hit -/

/-- C8: for an entry created at instant `c` and hit at instant `now` with
`0 ≤ now - c ≤ TTL` (one hour), the duration the handler computes,
`|now - (c + TTL)|`, is the remaining freshness `TTL - (now - c)`. It lies between 0 and
3600 seconds. The `max-age` the handler emits on such a hit is that remaining freshness
in whole seconds: the header of the reply is `public, max-age=<n>, immutable` for the
one whole number `n` nearest to `TTL - (now - c)` seconds (a half going to the even
one), which is the number `secondsRounded` computes and lies between 0 and 3600. For a
hit at the creation instant the header says 3600. Neither the duration nor the number
emitted increases as `now` advances within the window. -/
theorem age_is_remaining_freshness (now c : Int) (h0 : 0 ≤ now - c) (h1 : now - c ≤ Hour) :
    age now c = Hour - (now - c) ∧
    (0 ≤ age now c ∧ age now c ≤ 3600 * Second) ∧
    (NearestSeconds (secondsRounded (age now c)) (Hour - (now - c)) ∧
      ∀ n : Int, NearestSeconds n (Hour - (now - c)) → n = secondsRounded (age now c)) ∧
    (0 ≤ secondsRounded (age now c) ∧ secondsRounded (age now c) ≤ 3600) ∧
    (age c c = 3600 * Second ∧ secondsRounded (age c c) = 3600) ∧
    (∀ later : Int, now ≤ later → later - c ≤ Hour →
      age later c ≤ age now c ∧
      secondsRounded (age later c) ≤ secondsRounded (age now c)) ∧
    (∀ {Doc Sel : Type} (env : Env Doc Sel) (cch : LRU) (ctx : Request)
      (val : CachedResponse), ctx.path = "/" →
      (cch.Get (requestKey ctx) env.nowGet).1 = some val →
      env.nowSince = now → val.Timestamp = c →
      (∀ n : Int, NearestSeconds n (Hour - (now - c)) →
        (handleRequest env cch ctx).reply.cacheControl
          = some ("public, max-age=" ++ toString n ++ ", immutable")) ∧
      (now = c → (handleRequest env cch ctx).reply.cacheControl
          = some "public, max-age=3600, immutable")) := by
  have ha := age_of_fresh now c h0 h1
  have hH : Hour = 3600 * Second := rfl
  have hcc : age c c = 3600 * Second := by
    rw [age_of_fresh c c (by omega) (by rw [hH]; unfold Second; omega), hH]; omega
  have h3600 : secondsRounded (3600 * Second) = 3600 := by decide
  have hge : 0 ≤ age now c := by rw [ha]; omega
  have hle : age now c ≤ 3600 * Second := by rw [ha, hH]; omega
  have hnear : NearestSeconds (secondsRounded (age now c)) (Hour - (now - c)) := by
    have hd : 0 ≤ Hour - (now - c) := by rw [← ha]; exact hge
    rw [ha]
    exact secondsRounded_nearest _ hd
  have huniq : ∀ n : Int, NearestSeconds n (Hour - (now - c)) →
      n = secondsRounded (age now c) :=
    fun n hn => nearestSeconds_unique _ _ _ hn hnear
  refine ⟨ha, ⟨hge, hle⟩, ⟨hnear, huniq⟩, ⟨?_, ?_⟩, ⟨hcc, by rw [hcc, h3600]⟩, ?_, ?_⟩
  · have := secondsRounded_mono 0 (age now c) le_rfl hge
    have h00 : secondsRounded 0 = 0 := by decide
    omega
  · have := secondsRounded_mono (age now c) (3600 * Second) hge hle
    omega
  · intro later hl1 hl2
    have hb := age_of_fresh later c (by omega) hl2
    have hle2 : age later c ≤ age now c := by rw [ha, hb]; omega
    exact ⟨hle2, secondsRounded_mono _ _ (by rw [hb]; omega) hle2⟩
  · intro Doc Sel env cch ctx val hp hhit hnow hts
    have hrun := handleRequest_hit env cch ctx val hp hhit
    have hhdr : (handleRequest env cch ctx).reply.cacheControl
        = some ("public, max-age=" ++ toString (secondsRounded (age now c))
            ++ ", immutable") := by
      rw [hrun, hnow, hts]; rfl
    refine ⟨fun n hn => by rw [hhdr, huniq n hn], fun hnc => ?_⟩
    rw [hhdr, hnc, hcc, h3600]
    rfl

/-- C8 for the entry the first request of `demoEnv` stores (timestamp 102), hit half an
hour and half a second later: 1799.5 seconds remain and the header says 1800. -/
theorem age_is_remaining_freshness_witness :
    age (102 + 1800 * Second + 500000000) 102 = 1799 * Second + 500000000 ∧
    secondsRounded (age (102 + 1800 * Second + 500000000) 102) = 1800 ∧
    (handleRequest laterEnv (handleRequest demoEnv cache demoReq).cache demoReq).reply.cacheControl
      = some "public, max-age=1800, immutable" :=
  have h := age_is_remaining_freshness (102 + 1800 * Second + 500000000) 102
    (by decide) (by decide)
  have hn : NearestSeconds 1800 (Hour - (102 + 1800 * Second + 500000000 - 102)) := by
    decide
  ⟨h.1, (h.2.2.1.2 1800 hn).symm,
    (h.2.2.2.2.2.2 laterEnv (handleRequest demoEnv cache demoReq).cache demoReq
      ⟨102, "<p> hi </p>"⟩ (by decide) (by decide) rfl rfl).1 1800 hn⟩

end HtmlApi
